import Mathlib

/-!
Shallow embedding of the source-root subsystem of `ra_analysis`
(`crates/ra_analysis/src/roots.rs`): the `SourceRoot` capability, the
`WritableSourceRoot` built on an incremental query store, the
`ReadonlySourceRoot` with its eager parallel construction, and the
per-file `FileData` memo cell.

External collaborators (parser, module-descriptor extraction, module-graph
linking, symbol-index construction, the file resolver) live in other crates
and are out of scope per the specification; they are modelled as free
(input-recording) pure functions, which is the strongest model for proving
the equality and determinism properties below: any concrete deterministic
implementation factors through it.

Rust's `FileId` is an opaque comparable identifier; it is modelled as `Nat`.
`FxHashSet<FileId>` is modelled as `Finset Nat`; `FxHashMap` as an
association list with last-insert-wins lookup, matching hash-map insertion
semantics. `Arc` sharing is modelled by value equality. The identifier
`syntax` is a Lean keyword, so fields and methods named `syntax` in the
source are rendered `tree` here.
-/

/-- `FileId`: opaque, small, comparable identifier (modelled as `Nat`). -/
abbrev FileId := Nat

/-- Modelled from the spec: `FileResolverImp` (crate-internal, outside this
subsystem's source) is a pluggable capability resolving module references
to `FileId`s; only its identity matters to this subsystem, so it is
modelled as an opaque token. -/
structure FileResolverImp where
  tag : Nat
deriving DecidableEq, Repr

/-- `Canceled`: sentinel outcome of an abandoned derived computation. -/
structure Canceled where
deriving DecidableEq, Repr

/-- `Cancelable<T> = Result<T, Canceled>`. -/
abbrev Cancelable (α : Type) := Except Canceled α

/-- `db::FileSet`: current membership plus the active resolver. -/
structure FileSet where
  files : Finset FileId
  resolver : FileResolverImp

/-- The slice of `db::RootDatabase` state this subsystem reads and writes:
the `FileTextQuery` input table and the `FileSetQuery` input. -/
structure RootDatabase where
  fileText : FileId → Option String
  fileSet : FileSet

/-- `WritableSourceRoot { db: db::RootDatabase }`. -/
structure WritableSourceRoot where
  db : RootDatabase

/-- Writing one text into the incremental store:
`self.db.query(db::FileTextQuery).set(file_id, Arc::new(text))`. -/
def setText (store : FileId → Option String) (fid : FileId) (t : String) :
    FileId → Option String :=
  fun f => if f = fid then some t else store f

/-- Accumulator state of the first loop of `apply_changes`: the `changed`
and `removed` hash sets plus the text store being written through. -/
structure ChangeAccum where
  changed : Finset FileId
  removed : Finset FileId
  store : FileId → Option String

/-- One iteration of the `for (file_id, text) in changes` loop of
`WritableSourceRoot::apply_changes`: a `None` text records a removal, a
`Some` text is written to the store immediately and records a change. -/
def applyStep (acc : ChangeAccum) (c : FileId × Option String) : ChangeAccum :=
  match c.2 with
  | none => { acc with removed := insert c.1 acc.removed }
  | some text =>
      { acc with
        store := setText acc.store c.1 text
        changed := insert c.1 acc.changed }

/-- `WritableSourceRoot::apply_changes`: accumulate `changed`/`removed`
over the batch while writing texts through, then publish
`files = (old files − removed) ∪ changed` and
`resolver = file_resolver.unwrap_or_else(|| old resolver)` as the new
`FileSet`. -/
def WritableSourceRoot.apply_changes (w : WritableSourceRoot)
    (changes : List (FileId × Option String))
    (file_resolver : Option FileResolverImp) : WritableSourceRoot :=
  let a := changes.foldl applyStep
    { changed := ∅, removed := ∅, store := w.db.fileText }
  let files : Finset FileId := (w.db.fileSet.files \ a.removed) ∪ a.changed
  let resolver := file_resolver.getD w.db.fileSet.resolver
  { db := { fileText := a.store, fileSet := { files, resolver } } }

/-- `WritableSourceRoot::contains`. -/
def WritableSourceRoot.contains (w : WritableSourceRoot) (f : FileId) : Bool :=
  f ∈ w.db.fileSet.files

/-- The batch has at least one deletion record for `f`. -/
def hasDeletion (changes : List (FileId × Option String)) (f : FileId) : Bool :=
  changes.any fun c => c.1 == f && c.2.isNone

/-- The batch has at least one set record for `f`. -/
def hasSet (changes : List (FileId × Option String)) (f : FileId) : Bool :=
  changes.any fun c => c.1 == f && c.2.isSome

/-- The one fold step the text store performs for a fixed `f`: a set record
for `f` overwrites, anything else leaves the accumulator. -/
def setFold (f : FileId) (acc : Option String) (c : FileId × Option String) :
    Option String :=
  if c.1 == f && c.2.isSome then c.2 else acc

/-- The text the last set record for `f` in the batch carries, if any. -/
def lastSetText (changes : List (FileId × Option String)) (f : FileId) :
    Option String :=
  changes.foldl (setFold f) none

theorem applyStep_removed_mem (cs : List (FileId × Option String))
    (a : ChangeAccum) (f : FileId) :
    f ∈ (cs.foldl applyStep a).removed ↔ f ∈ a.removed ∨ hasDeletion cs f := by
  induction cs generalizing a with
  | nil => simp [hasDeletion]
  | cons c rest ih =>
    rcases c with ⟨fid, t⟩
    cases t with
    | none =>
      simp only [List.foldl_cons, ih, applyStep, hasDeletion, List.any_cons]
      constructor
      · rintro (h | h)
        · rcases Finset.mem_insert.mp h with h | h
          · subst h; simp
          · exact Or.inl h
        · simp_all [hasDeletion]
      · rintro (h | h)
        · exact Or.inl (Finset.mem_insert_of_mem h)
        · simp only [Bool.or_eq_true] at h
          rcases h with h | h
          · have : fid = f := by simpa using h
            subst this
            exact Or.inl (Finset.mem_insert_self _ _)
          · exact Or.inr (by simpa [hasDeletion] using h)
    | some t =>
      simp only [List.foldl_cons, ih, applyStep, hasDeletion, List.any_cons]
      simp [hasDeletion]

theorem applyStep_changed_mem (cs : List (FileId × Option String))
    (a : ChangeAccum) (f : FileId) :
    f ∈ (cs.foldl applyStep a).changed ↔ f ∈ a.changed ∨ hasSet cs f := by
  induction cs generalizing a with
  | nil => simp [hasSet]
  | cons c rest ih =>
    rcases c with ⟨fid, t⟩
    cases t with
    | none =>
      simp only [List.foldl_cons, ih, applyStep, hasSet, List.any_cons]
      simp [hasSet]
    | some t =>
      simp only [List.foldl_cons, ih, applyStep, hasSet, List.any_cons]
      constructor
      · rintro (h | h)
        · rcases Finset.mem_insert.mp h with h | h
          · subst h; simp
          · exact Or.inl h
        · simp_all [hasSet]
      · rintro (h | h)
        · exact Or.inl (Finset.mem_insert_of_mem h)
        · simp only [Bool.or_eq_true] at h
          rcases h with h | h
          · have : fid = f := by simpa using h
            subst this
            exact Or.inl (Finset.mem_insert_self _ _)
          · exact Or.inr (by simpa [hasSet] using h)

/-- Membership after `apply_changes`, characterised record-wise. -/
theorem apply_changes_mem (w : WritableSourceRoot)
    (cs : List (FileId × Option String)) (r : Option FileResolverImp)
    (f : FileId) :
    f ∈ (w.apply_changes cs r).db.fileSet.files ↔
      (f ∈ w.db.fileSet.files ∧ ¬ hasDeletion cs f = true) ∨ hasSet cs f = true := by
  simp only [WritableSourceRoot.apply_changes, Finset.mem_union, Finset.mem_sdiff]
  rw [applyStep_removed_mem, applyStep_changed_mem]
  simp

theorem store_foldl (cs : List (FileId × Option String)) (a : ChangeAccum)
    (f : FileId) :
    (cs.foldl applyStep a).store f = cs.foldl (setFold f) (a.store f) := by
  induction cs generalizing a with
  | nil => rfl
  | cons c rest ih =>
    rcases c with ⟨fid, t⟩
    cases t with
    | none =>
      simp only [List.foldl_cons, ih, applyStep, setFold]
      simp
    | some t =>
      simp only [List.foldl_cons, ih, applyStep, setFold, setText]
      by_cases h : fid = f
      · subst h; simp
      · simp [h, Ne.symm h]

theorem setFold_init (cs : List (FileId × Option String)) (f : FileId)
    (i : Option String) :
    cs.foldl (setFold f) i =
      match cs.foldl (setFold f) none with
      | some t => some t
      | none => i := by
  induction cs generalizing i with
  | nil => rfl
  | cons c rest ih =>
    simp only [List.foldl_cons]
    rw [ih (setFold f i c), ih (setFold f none c)]
    cases hrest : rest.foldl (setFold f) none with
    | some t => rfl
    | none =>
      simp only [setFold]
      by_cases h : (c.1 == f && c.2.isSome) = true
      · simp only [h, if_pos]
        cases ht : c.2 with
        | none => simp [ht] at h
        | some t => rfl
      · simp [h]

theorem apply_changes_text (w : WritableSourceRoot)
    (cs : List (FileId × Option String)) (r : Option FileResolverImp)
    (f : FileId) :
    (w.apply_changes cs r).db.fileText f =
      match lastSetText cs f with
      | some t => some t
      | none => w.db.fileText f := by
  show (cs.foldl applyStep _).store f = _
  rw [store_foldl]
  exact setFold_init cs f _

theorem setFold_filter (cs : List (FileId × Option String)) (f : FileId)
    (i : Option String) :
    cs.foldl (setFold f) i =
      (cs.filter (fun c => c.1 == f && c.2.isSome)).foldl (setFold f) i := by
  induction cs generalizing i with
  | nil => rfl
  | cons c rest ih =>
    by_cases h : (c.1 == f && c.2.isSome) = true
    · simp only [List.foldl_cons, List.filter_cons, h, if_pos, List.foldl_cons]
      exact ih _
    · have hstep : setFold f i c = i := by simp [setFold, h]
      simp only [List.foldl_cons, List.filter_cons, h]
      simp only [if_neg, Bool.false_eq_true, hstep]
      exact ih i

/-- Number of set records for `f` in the batch. -/
def numSets (changes : List (FileId × Option String)) (f : FileId) : Nat :=
  (changes.filter (fun c => c.1 == f && c.2.isSome)).length

theorem hasDeletion_perm {cs1 cs2 : List (FileId × Option String)}
    (h : cs1.Perm cs2) (f : FileId) : hasDeletion cs1 f = hasDeletion cs2 f := by
  simp only [hasDeletion]
  refine Bool.eq_iff_iff.mpr ?_
  simp only [List.any_eq_true]
  exact ⟨fun ⟨x, hx, hp⟩ => ⟨x, h.mem_iff.mp hx, hp⟩,
    fun ⟨x, hx, hp⟩ => ⟨x, h.mem_iff.mpr hx, hp⟩⟩

theorem hasSet_perm {cs1 cs2 : List (FileId × Option String)}
    (h : cs1.Perm cs2) (f : FileId) : hasSet cs1 f = hasSet cs2 f := by
  simp only [hasSet]
  refine Bool.eq_iff_iff.mpr ?_
  simp only [List.any_eq_true]
  exact ⟨fun ⟨x, hx, hp⟩ => ⟨x, h.mem_iff.mp hx, hp⟩,
    fun ⟨x, hx, hp⟩ => ⟨x, h.mem_iff.mpr hx, hp⟩⟩

theorem perm_eq_of_length_le_one {α : Type} {l1 l2 : List α}
    (h : l1.Perm l2) (hl : l1.length ≤ 1) : l1 = l2 := by
  cases l1 with
  | nil => exact (List.perm_nil.mp h.symm).symm
  | cons a rest =>
    cases rest with
    | nil => exact (List.perm_singleton.mp h.symm).symm
    | cons b r2 => simp at hl

/-- Concrete writable root used by witnesses and counterexamples: empty
membership, no stored texts. -/
def w0 : WritableSourceRoot :=
  { db := { fileText := fun _ => none, fileSet := { files := ∅, resolver := ⟨0⟩ } } }

/-- C1: after `apply_changes`, membership equals (previous membership minus
the ids with at least one deletion record in the batch) union the ids with
at least one set record; in particular an id that has both a deletion and a
set record within one batch is present afterwards. -/
theorem c1_apply_changes_membership (w : WritableSourceRoot)
    (cs : List (FileId × Option String)) (r : Option FileResolverImp)
    (f : FileId) :
    (f ∈ (w.apply_changes cs r).db.fileSet.files ↔
      (f ∈ w.db.fileSet.files ∧ hasDeletion cs f = false) ∨ hasSet cs f = true) ∧
    (hasDeletion cs f = true → hasSet cs f = true →
      f ∈ (w.apply_changes cs r).db.fileSet.files) := by
  constructor
  · rw [apply_changes_mem]
    simp [Bool.not_eq_true]
  · intro _ hs
    exact (apply_changes_mem w cs r f).mpr (Or.inr hs)

/-- Witness for C1 at a concrete batch: file 2 is both deleted and set in
one batch and ends up a member. -/
theorem c1_apply_changes_membership_witness :
    hasDeletion [((2 : FileId), none), (2, some "x")] 2 = true ∧
    hasSet [((2 : FileId), none), (2, some "x")] 2 = true ∧
    2 ∈ (w0.apply_changes [(2, none), (2, some "x")] none).db.fileSet.files :=
  ⟨by decide, by decide,
    (c1_apply_changes_membership w0 [(2, none), (2, some "x")] none 2).2
      (by decide) (by decide)⟩

/-- C2 counterexample: two set records for the same file in one batch.
Both orders leave file 0 a member, but the stored text differs (`"b"`
versus `"a"`), so a permutation of a batch can change the stored text of a
member file. -/
theorem c2_batch_order_counterexample :
    ([((0 : FileId), some "a"), (0, some "b")] :
        List (FileId × Option String)).Perm [(0, some "b"), (0, some "a")] ∧
    (w0.apply_changes [(0, some "a"), (0, some "b")] none).contains 0 = true ∧
    (w0.apply_changes [(0, some "b"), (0, some "a")] none).contains 0 = true ∧
    (w0.apply_changes [(0, some "a"), (0, some "b")] none).db.fileText 0 ≠
      (w0.apply_changes [(0, some "b"), (0, some "a")] none).db.fileText 0 :=
  ⟨by decide, by decide, by decide, by decide⟩

/-- C2 (amended): permuting the records of a batch never changes the final
membership; it also leaves the stored text of every file unchanged
provided that file has at most one set record in the batch (with several
set records for one file the last one wins, so their relative order can
change the text). In particular the spec's example pair of batches agrees. -/
theorem c2_batch_order (w : WritableSourceRoot)
    (cs1 cs2 : List (FileId × Option String)) (r : Option FileResolverImp)
    (hp : cs1.Perm cs2) :
    (w.apply_changes cs1 r).db.fileSet.files =
      (w.apply_changes cs2 r).db.fileSet.files ∧
    ∀ f : FileId, numSets cs1 f ≤ 1 →
      (w.apply_changes cs1 r).db.fileText f =
        (w.apply_changes cs2 r).db.fileText f := by
  constructor
  · ext f
    rw [apply_changes_mem, apply_changes_mem, hasDeletion_perm hp f,
      hasSet_perm hp f]
  · intro f hn
    rw [apply_changes_text, apply_changes_text]
    have hfil : cs1.filter (fun c => c.1 == f && c.2.isSome) =
        cs2.filter (fun c => c.1 == f && c.2.isSome) :=
      perm_eq_of_length_le_one (hp.filter _) (by simpa [numSets] using hn)
    have hlast : lastSetText cs1 f = lastSetText cs2 f := by
      unfold lastSetText
      rw [setFold_filter cs1 f none, hfil, ← setFold_filter cs2 f none]
    rw [hlast]

/-- Witness for C2 at the spec's example: `[(5, some "a"), (5, none)]` and
`[(5, none), (5, some "a")]` give the same membership and the same texts. -/
theorem c2_batch_order_witness :
    ([((5 : FileId), some "a"), (5, none)] :
        List (FileId × Option String)).Perm [(5, none), (5, some "a")] ∧
    ((w0.apply_changes [((5 : FileId), some "a"), (5, none)] none).db.fileSet.files =
        (w0.apply_changes [(5, none), (5, some "a")] none).db.fileSet.files ∧
      ∀ f : FileId, numSets [((5 : FileId), some "a"), (5, none)] f ≤ 1 →
        (w0.apply_changes [((5 : FileId), some "a"), (5, none)] none).db.fileText f =
          (w0.apply_changes [(5, none), (5, some "a")] none).db.fileText f) :=
  ⟨by decide, c2_batch_order w0 _ _ none (by decide)⟩

/-- C7: after `apply_changes` the active resolver is the supplied override
when one is given, and the previous resolver otherwise; membership updates
alone never change it. -/
theorem c7_apply_changes_resolver (w : WritableSourceRoot)
    (cs : List (FileId × Option String)) (r : Option FileResolverImp) :
    (w.apply_changes cs r).db.fileSet.resolver = r.getD w.db.fileSet.resolver ∧
    (w.apply_changes cs none).db.fileSet.resolver = w.db.fileSet.resolver ∧
    ∀ ov : FileResolverImp,
      (w.apply_changes cs (some ov)).db.fileSet.resolver = ov :=
  ⟨rfl, rfl, fun _ => rfl⟩

/-- Modelled from the spec: `ra_syntax::File` (the external parser's output)
is a pure function of the text and cheap to share, so the model records the
text it was parsed from. -/
structure File where
  sourceText : String
deriving DecidableEq, Repr

/-- `File::parse`, the external parser collaborator (successful case). -/
def File.parse (text : String) : File := ⟨text⟩

/-- Modelled from the spec: `ra_editor::LineIndex` is a pure function of
the text, modelled freely. -/
structure LineIndex where
  ofText : String
deriving DecidableEq, Repr

/-- `LineIndex::new`. -/
def LineIndex.new (text : String) : LineIndex := ⟨text⟩

/-- Modelled from the spec: `ModuleDescriptor` is a per-file summary
derived from the parse tree (`syntax.ast()` is a pure projection of the
`File`), modelled freely. -/
structure ModuleDescriptor where
  ofTree : File
deriving DecidableEq, Repr

/-- `ModuleDescriptor::new`. -/
def ModuleDescriptor.new (tree : File) : ModuleDescriptor := ⟨tree⟩

/-- Modelled from the spec: `ModuleTreeDescriptor` is a deterministic join
of all per-file descriptors with the resolver, modelled freely. -/
structure ModuleTreeDescriptor where
  modules : List (FileId × ModuleDescriptor)
  resolver : FileResolverImp
deriving DecidableEq, Repr

/-- `ModuleTreeDescriptor::new`. -/
def ModuleTreeDescriptor.new (mods : List (FileId × ModuleDescriptor))
    (resolver : FileResolverImp) : ModuleTreeDescriptor := ⟨mods, resolver⟩

/-- Modelled from the spec: `SymbolIndex` aggregates the symbols of a
collection of parsed files, modelled freely. -/
structure SymbolIndex where
  sources : List (FileId × File)
deriving DecidableEq, Repr

/-- `SymbolIndex::for_files`. -/
def SymbolIndex.for_files (files : List (FileId × File)) : SymbolIndex :=
  ⟨files⟩

/-- `FileData`: the per-file memo cell — immutable text plus two
`OnceCell`s, each modelled as an `Option` (`none` is an empty cell). The
source field `syntax` is rendered `tree`. -/
structure FileData where
  text : String
  lines : Option LineIndex
  tree : Option File
deriving DecidableEq, Repr

/-- `FileData::new`: both cells start empty. -/
def FileData.new (text : String) : FileData :=
  { text, tree := none, lines := none }

/-- `FileData::lines`: `get_or_init` on the lines cell. Returns the handle,
the updated cell state, and whether the derivation ran on this call. -/
def FileData.linesOnce (d : FileData) : LineIndex × FileData × Bool :=
  match d.lines with
  | some v => (v, d, false)
  | none =>
      let v := LineIndex.new d.text
      (v, { d with lines := some v }, true)

/-- One call to the external parser: a tree, or an unrecoverable fault
(a panic in the source). -/
inductive ParseOutcome where
  | ok (file : File)
  | fault
deriving DecidableEq, Repr

/-- Outcome of `FileData::syntax` (rendered `treeCall`): the tree handle
with the updated cell and a flag telling whether the parser ran, or an
escalated parser fault carrying the text that was logged via `error!`
before `resume_unwind`. -/
inductive TreeOutcome where
  | ok (file : File) (cell : FileData) (computed : Bool)
  | fault (logged : String)
deriving DecidableEq, Repr

/-- `FileData::syntax`: `catch_unwind(|| cell.get_or_init(|| File::parse(text)))`;
on a parser panic the offending text is logged and the panic re-raised,
never converted into a normal return. The parser is passed as a parameter
so that faulting parsers can be reasoned about; the non-faulting parser is
`fun t => ParseOutcome.ok (File.parse t)`. -/
def FileData.treeCall (parse : String → ParseOutcome) (d : FileData) :
    TreeOutcome :=
  match d.tree with
  | some file => .ok file d false
  | none =>
      match parse d.text with
      | .ok file => .ok file { d with tree := some file } true
      | .fault => .fault d.text

/-- `ReadonlySourceRoot`: symbol index, file map (`FxHashMap`, modelled as
an insertion-ordered association list), module tree. -/
structure ReadonlySourceRoot where
  symbol_index : SymbolIndex
  file_map : List (FileId × FileData)
  module_tree : ModuleTreeDescriptor
deriving DecidableEq, Repr

/-- Hash-map lookup: the last inserted binding for a key wins. -/
def lookupFile (m : List (FileId × FileData)) (f : FileId) : Option FileData :=
  (m.reverse.find? fun p => p.1 == f).map Prod.snd

/-- `ReadonlySourceRoot::new`, sequential denotation: `par_iter().collect()`
on an indexed parallel iterator returns results in input order, so each
parallel per-file phase denotes a `map`; scheduling-independence of that
denotation is proved separately (`c8_parallel_construction_deterministic`). -/
def ReadonlySourceRoot.new (files : List (FileId × String))
    (file_resolver : FileResolverImp) : ReadonlySourceRoot :=
  let modules := files.map fun p =>
    (p.1, File.parse p.2, ModuleDescriptor.new (File.parse p.2))
  { symbol_index := SymbolIndex.for_files (modules.map fun it => (it.1, it.2.1))
    file_map := files.map fun p => (p.1, FileData.new p.2)
    module_tree :=
      ModuleTreeDescriptor.new (modules.map fun it => (it.1, it.2.2)) file_resolver }

/-- `ReadonlySourceRoot::data`, with the fatal `panic!("unknown file")`
branch represented by `none`. -/
def ReadonlySourceRoot.dataOpt (r : ReadonlySourceRoot) (f : FileId) :
    Option FileData :=
  lookupFile r.file_map f

/-- `ReadonlySourceRoot::contains`: `file_map.contains_key`. -/
def ReadonlySourceRoot.contains (r : ReadonlySourceRoot) (f : FileId) : Bool :=
  (lookupFile r.file_map f).isSome

/-- Result of the capability's `lines` method: a handle, or the fatal
membership fault (the `panic!` in `data`). -/
inductive LinesResult where
  | ok (index : LineIndex)
  | membershipFault
deriving DecidableEq, Repr

/-- Result of the capability's `syntax` method: a handle, the fatal
membership fault, or an escalated parser fault. -/
inductive TreeResult where
  | ok (file : File)
  | membershipFault
  | parserFault
deriving DecidableEq, Repr

/-- Readonly `lines`: `Arc::clone(self.data(file_id).lines())`. -/
def ReadonlySourceRoot.linesQ (r : ReadonlySourceRoot) (f : FileId) :
    LinesResult :=
  match r.dataOpt f with
  | none => .membershipFault
  | some d => .ok d.linesOnce.1

/-- Readonly `syntax`: `self.data(file_id).syntax().clone()`. -/
def ReadonlySourceRoot.treeQ (parse : String → ParseOutcome)
    (r : ReadonlySourceRoot) (f : FileId) : TreeResult :=
  match r.dataOpt f with
  | none => .membershipFault
  | some d =>
      match d.treeCall parse with
      | .ok file _ _ => .ok file
      | .fault _ => .parserFault

/-- Readonly `module_tree`: `Ok(Arc::clone(&self.module_tree))`. -/
def ReadonlySourceRoot.module_tree_query (r : ReadonlySourceRoot) :
    Cancelable ModuleTreeDescriptor :=
  .ok r.module_tree

/-- Readonly `symbols`: `acc.push(Arc::clone(&self.symbol_index)); Ok(())`.
Returns the extended accumulator together with the `Cancelable` result. -/
def ReadonlySourceRoot.symbols (r : ReadonlySourceRoot)
    (acc : List SymbolIndex) : List SymbolIndex × Cancelable Unit :=
  (acc ++ [r.symbol_index], .ok ())

/-- C3: on the readonly root, `module_tree` always returns `Ok` carrying
the module tree fixed at construction, and `symbols` always returns `Ok`;
neither can ever produce `Canceled`. -/
theorem c3_readonly_never_canceled (files : List (FileId × String))
    (res : FileResolverImp) (acc : List SymbolIndex) :
    (ReadonlySourceRoot.new files res).module_tree_query =
      Except.ok (ReadonlySourceRoot.new files res).module_tree ∧
    (ReadonlySourceRoot.new files res).module_tree =
      ModuleTreeDescriptor.new
        (files.map fun p => (p.1, ModuleDescriptor.new (File.parse p.2))) res ∧
    ((ReadonlySourceRoot.new files res).symbols acc).2 = Except.ok () := by
  refine ⟨rfl, ?_, rfl⟩
  simp [ReadonlySourceRoot.new, List.map_map]
  rfl

/-- C9: on the readonly root, `symbols` appends exactly one handle — the
construction-time symbol index built from every file of the root — and
returns `Ok`; every caller of the same root receives that same handle. -/
theorem c9_readonly_symbols (files : List (FileId × String))
    (res : FileResolverImp) (acc : List SymbolIndex) :
    (ReadonlySourceRoot.new files res).symbols acc =
      (acc ++ [(ReadonlySourceRoot.new files res).symbol_index], Except.ok ()) ∧
    (ReadonlySourceRoot.new files res).symbol_index =
      SymbolIndex.for_files (files.map fun p => (p.1, File.parse p.2)) := by
  refine ⟨rfl, ?_⟩
  simp [ReadonlySourceRoot.new, List.map_map]
  rfl

/-- The non-faulting parser: every text parses. -/
def parseOk : String → ParseOutcome := fun t => .ok (File.parse t)

/-- Modelled from the spec: the mutable root's `lines` goes through the
incremental query store (`db.rs`, outside this subsystem's source); per the
capability contract a query for a file outside current membership is a
fatal fault (`none` here), otherwise the line index of the stored text. -/
def WritableSourceRoot.linesQ (w : WritableSourceRoot) (f : FileId) :
    Option LineIndex :=
  if w.contains f then (w.db.fileText f).map LineIndex.new else none

/-- Modelled from the spec: the mutable root's `syntax`, analogous to
`WritableSourceRoot.linesQ`. -/
def WritableSourceRoot.treeQ (w : WritableSourceRoot) (f : FileId) :
    Option File :=
  if w.contains f then (w.db.fileText f).map File.parse else none

/-- A concrete readonly root used by witnesses. -/
def ro1 : ReadonlySourceRoot := ReadonlySourceRoot.new [(1, "fn main()")] ⟨0⟩

/-- C4: querying `lines`/`syntax` for a `FileId` outside current membership
is the fatal membership fault, never a recoverable value, and under the
precondition `contains = true` that fatal branch is unreachable. Proved
from the source for the readonly root; the writable root's queries sit
behind the incremental store and are spec-modelled. -/
theorem c4_membership_fault (r : ReadonlySourceRoot) (w : WritableSourceRoot)
    (parse : String → ParseOutcome) (f : FileId) :
    (r.contains f = false →
      r.linesQ f = .membershipFault ∧ r.treeQ parse f = .membershipFault) ∧
    (r.contains f = true →
      r.linesQ f ≠ .membershipFault ∧ r.treeQ parse f ≠ .membershipFault) ∧
    (w.contains f = false → w.linesQ f = none ∧ w.treeQ f = none) := by
  have hwrit : w.contains f = false → w.linesQ f = none ∧ w.treeQ f = none := by
    intro hw
    constructor
    · simp [WritableSourceRoot.linesQ, hw]
    · simp [WritableSourceRoot.treeQ, hw]
  cases hl : lookupFile r.file_map f with
  | none =>
    refine ⟨fun _ => ⟨?_, ?_⟩, fun hc => ?_, hwrit⟩
    · simp [ReadonlySourceRoot.linesQ, ReadonlySourceRoot.dataOpt, hl]
    · simp [ReadonlySourceRoot.treeQ, ReadonlySourceRoot.dataOpt, hl]
    · simp [ReadonlySourceRoot.contains, hl] at hc
  | some d =>
    refine ⟨fun hc => ?_, fun _ => ⟨?_, ?_⟩, hwrit⟩
    · simp [ReadonlySourceRoot.contains, hl] at hc
    · simp [ReadonlySourceRoot.linesQ, ReadonlySourceRoot.dataOpt, hl]
    · simp only [ReadonlySourceRoot.treeQ, ReadonlySourceRoot.dataOpt, hl]
      cases d.treeCall parse <;> simp

/-- Witness for C4: in `ro1`, file 2 is absent (fatal fault on `lines`)
and file 1 is present (no membership fault); in `w0`, file 3 is absent and
both queries fault. -/
theorem c4_membership_fault_witness :
    ro1.contains 2 = false ∧ ro1.linesQ 2 = .membershipFault ∧
    ro1.contains 1 = true ∧ ro1.linesQ 1 ≠ .membershipFault ∧
    w0.contains 3 = false ∧ w0.linesQ 3 = none :=
  ⟨by decide, ((c4_membership_fault ro1 w0 parseOk 2).1 (by decide)).1,
    by decide, ((c4_membership_fault ro1 w0 parseOk 1).2.1 (by decide)).1,
    by decide, ((c4_membership_fault ro1 w0 parseOk 3).2.2 (by decide)).1⟩

/-- C5: per-file memoization: a second `lines` call returns the same handle
as the first without recomputing and without changing the cell, and once a
`syntax` call has returned a tree, a repeated call returns that same tree
with the parser not running again. -/
theorem c5_memo_once (d : FileData) (parse : String → ParseOutcome) :
    d.linesOnce.2.1.linesOnce = (d.linesOnce.1, d.linesOnce.2.1, false) ∧
    (∀ file d' b, d.treeCall parse = .ok file d' b →
      d'.treeCall parse = .ok file d' false) := by
  constructor
  · cases hl : d.lines with
    | some v => simp [FileData.linesOnce, hl]
    | none => simp [FileData.linesOnce, hl]
  · intro file d' b h
    cases ht : d.tree with
    | some f0 =>
      simp only [FileData.treeCall, ht] at h
      cases h
      simp [FileData.treeCall, ht]
    | none =>
      cases hp : parse d.text with
      | ok f0 =>
        simp only [FileData.treeCall, ht, hp] at h
        cases h
        simp [FileData.treeCall]
      | fault =>
        simp [FileData.treeCall, ht, hp] at h

/-- Witness for C5: a first `syntax` call on a fresh cell for text `"x"`
parses and fills the cell; the repeated call returns the same tree without
running the parser. -/
theorem c5_memo_once_witness :
    (FileData.new "x").treeCall parseOk =
      .ok (File.parse "x") ⟨"x", none, some (File.parse "x")⟩ true ∧
    (⟨"x", none, some (File.parse "x")⟩ : FileData).treeCall parseOk =
      .ok (File.parse "x") ⟨"x", none, some (File.parse "x")⟩ false :=
  ⟨by decide,
    (c5_memo_once (FileData.new "x") parseOk).2 (File.parse "x")
      ⟨"x", none, some (File.parse "x")⟩ true (by decide)⟩

/-- C6: when the parser faults on the lazy first parse, the call logs
exactly the offending text for diagnostics and escalates the fault: it
produces no tree at all (in particular no empty or default tree) and no
normal return value. -/
theorem c6_parser_fault (d : FileData) (parse : String → ParseOutcome)
    (hcell : d.tree = none) (hf : parse d.text = .fault) :
    d.treeCall parse = .fault d.text ∧
    ∀ file d' b, d.treeCall parse ≠ .ok file d' b := by
  have h : d.treeCall parse = .fault d.text := by
    simp [FileData.treeCall, hcell, hf]
  exact ⟨h, fun file d' b hk => by rw [h] at hk; cases hk⟩

/-- Witness for C6: a parser that always faults, applied to a fresh cell
for text `"bad"`: the fault escalates carrying exactly `"bad"`. -/
theorem c6_parser_fault_witness :
    (FileData.new "bad").treeCall (fun _ => ParseOutcome.fault) =
      .fault "bad" :=
  (c6_parser_fault (FileData.new "bad") (fun _ => ParseOutcome.fault)
    rfl rfl).1

/-- One write of the readonly root's parallel phase: the worker finishing
index `i` stores `f xs[i]` into slot `i` of the result vector. -/
def schedStep {α β : Type} (f : α → β) (xs : List α)
    (acc : Nat → Option β) (i : Nat) : Nat → Option β :=
  fun j => if j = i then (xs[i]?).map f else acc j

/-- Slot contents after the workers complete in the order given by
`sched`. -/
def schedRun {α β : Type} (f : α → β) (xs : List α) (sched : List Nat) :
    Nat → Option β :=
  sched.foldl (schedStep f xs) fun _ => none

/-- `par_iter().map(f).collect()` under an explicit completion schedule:
the slots read back in input order, or `none` if a slot never completed. -/
def parMapSched {α β : Type} (f : α → β) (xs : List α) (sched : List Nat) :
    Option (List β) :=
  let slots := (List.range xs.length).map (schedRun f xs sched)
  if slots.all Option.isSome then some slots.reduceOption else none

theorem schedStep_foldl {α β : Type} (f : α → β) (xs : List α)
    (sched : List Nat) (acc : Nat → Option β) (j : Nat) :
    sched.foldl (schedStep f xs) acc j =
      if j ∈ sched then (xs[j]?).map f else acc j := by
  induction sched generalizing acc with
  | nil => simp
  | cons i rest ih =>
    simp only [List.foldl_cons, ih, List.mem_cons]
    by_cases hj : j ∈ rest
    · simp [hj]
    · by_cases hij : j = i
      · subst hij; simp [hj, schedStep]
      · simp [hj, hij, schedStep]

theorem reduceOption_map_some {α : Type} (l : List α) :
    (l.map some).reduceOption = l := by
  induction l with
  | nil => rfl
  | cons a rest ih => simp [ih]

theorem parMapSched_complete {α β : Type} (f : α → β) (xs : List α)
    (sched : List Nat) (hc : ∀ i < xs.length, i ∈ sched) :
    parMapSched f xs sched = some (xs.map f) := by
  have hslots : (List.range xs.length).map (schedRun f xs sched) =
      (xs.map f).map some := by
    refine List.ext_get?_iff.mpr fun n => ?_
    simp only [List.get?_eq_getElem?, List.getElem?_map]
    by_cases hn : n < xs.length
    · have hrun : schedRun f xs sched n = (xs[n]?).map f := by
        unfold schedRun
        rw [schedStep_foldl]
        simp [hc n hn]
      rw [List.getElem?_range hn]
      simp [hrun, List.getElem?_eq_getElem hn]
    · have h1 : xs.length ≤ n := Nat.le_of_not_lt hn
      rw [List.getElem?_eq_none (by simpa using h1),
        List.getElem?_eq_none (by simpa using h1)]
      rfl
  simp only [parMapSched, hslots]
  have hall : ((xs.map f).map some).all Option.isSome = true := by
    simp [List.all_eq_true]
  rw [if_pos hall, reduceOption_map_some]

/-- `ReadonlySourceRoot::new` with its two parallel phases run under
explicit completion schedules: `s1` for the parse + module-descriptor
phase, `s2` for the symbol-extraction phase over the collected `modules`
vector; `none` if a schedule leaves some slot incomplete. -/
def ReadonlySourceRoot.newSched (files : List (FileId × String))
    (file_resolver : FileResolverImp) (s1 s2 : List Nat) :
    Option ReadonlySourceRoot :=
  match parMapSched
      (fun p => (p.1, File.parse p.2, ModuleDescriptor.new (File.parse p.2)))
      files s1 with
  | none => none
  | some modules =>
      match parMapSched (fun it => (it.1, it.2.1)) modules s2 with
      | none => none
      | some symPairs =>
          some
            { symbol_index := SymbolIndex.for_files symPairs
              file_map := files.map fun p => (p.1, FileData.new p.2)
              module_tree :=
                ModuleTreeDescriptor.new (modules.map fun it => (it.1, it.2.2))
                  file_resolver }

/-- C8: the immutable root's construction is deterministic in the
scheduling of its parallel phases: any two complete schedules give the
same result, equal to the sequential construction. -/
theorem c8_parallel_construction_deterministic
    (files : List (FileId × String)) (res : FileResolverImp)
    (s1 s2 : List Nat)
    (h1 : ∀ i < files.length, i ∈ s1) (h2 : ∀ i < files.length, i ∈ s2) :
    ReadonlySourceRoot.newSched files res s1 s2 =
      some (ReadonlySourceRoot.new files res) := by
  have e1 := parMapSched_complete
    (fun p => (p.1, File.parse p.2, ModuleDescriptor.new (File.parse p.2)))
    files s1 h1
  have e2 := parMapSched_complete
    (fun it : FileId × File × ModuleDescriptor => (it.1, it.2.1))
    (files.map fun p => (p.1, File.parse p.2, ModuleDescriptor.new (File.parse p.2)))
    s2 (by simpa using h2)
  simp only [ReadonlySourceRoot.newSched, e1, e2]
  simp only [ReadonlySourceRoot.new, List.map_map]

/-- Witness for C8: two files, a redundant out-of-order schedule for the
first phase and an in-order one for the second; the result equals the
sequential construction. -/
theorem c8_parallel_construction_deterministic_witness :
    (∀ i < ([((1 : FileId), "mod a;"), (2, "fn foo()")] :
        List (FileId × String)).length, i ∈ [1, 0, 1]) ∧
    (∀ i < ([((1 : FileId), "mod a;"), (2, "fn foo()")] :
        List (FileId × String)).length, i ∈ [0, 1]) ∧
    ReadonlySourceRoot.newSched [((1 : FileId), "mod a;"), (2, "fn foo()")]
        ⟨7⟩ [1, 0, 1] [0, 1] =
      some (ReadonlySourceRoot.new [((1 : FileId), "mod a;"), (2, "fn foo()")] ⟨7⟩) :=
  ⟨by decide, by decide,
    c8_parallel_construction_deterministic _ ⟨7⟩ _ _ (by decide) (by decide)⟩

/-- The loop of `WritableSourceRoot::symbols`: for each member file in
iteration order, query `file_symbols` (the `Cancelable` salsa query, passed
as an oracle), push the handle on success, and return at the first
`Canceled` via `?`, keeping the accumulator as already extended. -/
def symbolsLoop (fileSymbols : FileId → Cancelable SymbolIndex) :
    List FileId → List SymbolIndex → List SymbolIndex × Cancelable Unit
  | [], acc => (acc, .ok ())
  | f :: rest, acc =>
      match fileSymbols f with
      | .error e => (acc, .error e)
      | .ok s => symbolsLoop fileSymbols rest (acc ++ [s])

/-- C10: `symbols` on the writable root is not atomic on error: when the
file `c` cancels, the accumulator keeps exactly the handles of the member
files processed before `c`, and the call returns `Canceled`. -/
theorem c10_symbols_not_atomic (fileSymbols : FileId → Cancelable SymbolIndex)
    (pre post : List FileId) (c : FileId) (acc : List SymbolIndex)
    (hpre : ∀ f ∈ pre, ∃ s, fileSymbols f = .ok s)
    (hc : fileSymbols c = .error ⟨⟩) :
    symbolsLoop fileSymbols (pre ++ c :: post) acc =
      (acc ++ pre.filterMap fun f => (fileSymbols f).toOption, .error ⟨⟩) := by
  induction pre generalizing acc with
  | nil => simp [symbolsLoop, hc]
  | cons a rest ih =>
    obtain ⟨s, hs⟩ := hpre a (by simp)
    simp only [List.cons_append, symbolsLoop, hs]
    rw [List.append_eq, ih _ fun f hf => hpre f (by simp [hf])]
    simp [List.filterMap_cons, hs, Except.toOption]

/-- Concrete `file_symbols` oracle for the C10 witness: file 9 cancels,
everything else succeeds. -/
def fs0 : FileId → Cancelable SymbolIndex := fun f =>
  if f = 9 then .error ⟨⟩
  else .ok (SymbolIndex.for_files [(f, File.parse "t")])

/-- Witness for C10: iteration order `[4, 5, 9, 6]` where file 9 cancels:
the accumulator keeps exactly the handles for files 4 and 5. -/
theorem c10_symbols_not_atomic_witness :
    (∀ f ∈ [(4 : FileId), 5], ∃ s, fs0 f = .ok s) ∧ fs0 9 = .error ⟨⟩ ∧
    symbolsLoop fs0 ([4, 5] ++ 9 :: [6]) [] =
      ([] ++ [(4 : FileId), 5].filterMap fun f => (fs0 f).toOption,
        .error ⟨⟩) :=
  ⟨by intro f hf; fin_cases hf <;> exact ⟨_, rfl⟩, rfl,
    c10_symbols_not_atomic fs0 [4, 5] [6] 9 []
      (by intro f hf; fin_cases hf <;> exact ⟨_, rfl⟩) rfl⟩
